import Mathlib

/-!
Verification of the swarm operation backend (`pyswarms/backend/operators.py`).

Arrays are shallowly embedded as `List ℚ` (cost vectors, positions) and
`List (List ℚ)` (matrices, one inner list per particle row).  Numpy's
elementwise operations become `List.zipWith`; `np.where(~mask, old, new)`
becomes an if-then-else selecting `new` where the mask holds; `np.repeat` of a
per-particle mask across the dimension axis followed by an elementwise
`np.where` is, on shape-consistent inputs, exactly whole-row selection, and is
embedded as such.  The two uniform random draw matrices of `update_velocity`
are explicit inputs.  Scalars are ℚ (exact arithmetic standing in for IEEE
floats; every claim here is about comparisons, selection and exact carrying of
values, not rounding).
-/

namespace PySwarms

/-- The behaviour mapping of a swarm: required keys `c1`, `c2`, `w`. -/
structure Behavior where
  c1 : ℚ
  c2 : ℚ
  w : ℚ
deriving Repr, DecidableEq

/-- The Swarm record (`pyswarms.backend.swarms.Swarm`): the fields read by the
operators in `operators.py`. -/
structure Swarm where
  position : List (List ℚ)
  velocity : List (List ℚ)
  current_cost : List ℚ
  pbest_pos : List (List ℚ)
  pbest_cost : List ℚ
  best_pos : List ℚ
  best_cost : ℚ
  behavior : Behavior
  n_particles : ℕ
  dimensions : ℕ
deriving Repr, DecidableEq

/-- Three-list pointwise combination, truncating to the shortest input
(the embedding of elementwise numpy operations over three aligned arrays). -/
def zipWith3 (f : α → β → γ → δ) : List α → List β → List γ → List δ
  | a :: as, b :: bs, c :: cs => f a b c :: zipWith3 f as bs cs
  | _, _, _ => []

/-- Cell access for a matrix embedded as a list of rows. -/
def cell (m : List (List ℚ)) (i j : ℕ) : ℚ := (m.getD i []).getD j 0

/-- `m` has `n` rows, each of length `d` (numpy shape `(n, d)`). -/
def rowsShape (m : List (List ℚ)) (n d : ℕ) : Prop :=
  m.length = n ∧ ∀ r ∈ m, r.length = d

instance (m : List (List ℚ)) (n d : ℕ) : Decidable (rowsShape m n d) :=
  inferInstanceAs (Decidable (_ ∧ _))

/-- `update_pbest` (operators.py lines 62-76): build the per-particle mask
`current_cost < pbest_cost`, select `position` rows / `current_cost` entries
where the mask holds (`np.where(~mask, old, new)`), carry old values elsewhere.
The source's `np.repeat` of the mask across `swarm.dimensions` columns makes
the positional `np.where` a whole-row selection, embedded directly here. -/
def update_pbest (s : Swarm) : List (List ℚ) × List ℚ :=
  let mask_cost : List Bool :=
    List.zipWith (fun c p => decide (c < p)) s.current_cost s.pbest_cost
  let new_pbest_pos :=
    zipWith3 (fun m oldrow newrow => if m then newrow else oldrow)
      mask_cost s.pbest_pos s.position
  let new_pbest_cost :=
    zipWith3 (fun m oldc newc => if m then newc else oldc)
      mask_cost s.pbest_cost s.current_cost
  (new_pbest_pos, new_pbest_cost)

/-- First index of the minimum value of a list (`np.argmin`: on ties the
lowest index wins; `0` on the empty list). -/
def argminIdx : List ℚ → ℕ
  | [] => 0
  | x :: xs =>
    let j := argminIdx xs
    if xs.getD j x < x then j + 1 else 0

/-- Minimum value of a list (`np.min`; `0` on the empty list, on which numpy
would raise — every use below is guarded by nonemptiness). -/
def npMin : List ℚ → ℚ
  | [] => 0
  | x :: xs => xs.foldl min x

/-- `update_gbest` (operators.py lines 109-117):
`best_pos = pbest_pos[argmin(pbest_cost)]`, `best_cost = min(pbest_cost)`. -/
def update_gbest (s : Swarm) : List ℚ × ℚ :=
  (s.pbest_pos.getD (argminIdx s.pbest_cost) [], npMin s.pbest_cost)

/-- Elementwise product of two matrices (numpy `*` on equal shapes). -/
def ewMul (a b : List (List ℚ)) : List (List ℚ) :=
  List.zipWith (List.zipWith (· * ·)) a b

/-- Elementwise sum of two matrices (numpy `+` on equal shapes). -/
def ewAdd (a b : List (List ℚ)) : List (List ℚ) :=
  List.zipWith (List.zipWith (· + ·)) a b

/-- Elementwise difference of two matrices (numpy `-` on equal shapes). -/
def ewSub (a b : List (List ℚ)) : List (List ℚ) :=
  List.zipWith (List.zipWith (· - ·)) a b

/-- Scalar times matrix (numpy scalar broadcasting). -/
def scalarMul (c : ℚ) (m : List (List ℚ)) : List (List ℚ) :=
  m.map (List.map (fun x => c * x))

/-- `update_velocity` (operators.py lines 202-230) with the two
`np.random.uniform(0, 1, swarm_size)` draw matrices `r1` (cognitive) and `r2`
(social) taken as explicit inputs.  `swarm.best_pos - swarm.position`
broadcasts the length-`dimensions` vector `best_pos` across all particle rows,
embedded as `List.replicate`.  With a clamp `(min_velocity, max_velocity)` the
mask `temp_velocity >= min && temp_velocity <= max` selects `temp_velocity`,
and `np.where(~mask, velocity, temp_velocity)` reverts every masked-out cell to
the old velocity. -/
def update_velocity (s : Swarm) (clamp : Option (ℚ × ℚ))
    (r1 r2 : List (List ℚ)) : List (List ℚ) :=
  let c1 := s.behavior.c1
  let c2 := s.behavior.c2
  let w := s.behavior.w
  let cognitive := ewMul (scalarMul c1 r1) (ewSub s.pbest_pos s.position)
  let social := ewMul (scalarMul c2 r2)
    (ewSub (List.replicate s.position.length s.best_pos) s.position)
  let temp_velocity := ewAdd (ewAdd (scalarMul w s.velocity) cognitive) social
  match clamp with
  | none => temp_velocity
  | some (min_velocity, max_velocity) =>
      List.zipWith (List.zipWith (fun v t =>
        if min_velocity ≤ t ∧ t ≤ max_velocity then t else v))
        s.velocity temp_velocity

/-- `update_position` (operators.py lines 252-270):
`temp_position = position + velocity`; with bounds `(lb, ub)` the per-particle
mask `np.all(lb <= temp_position, axis=1) * np.all(temp_position <= ub, axis=1)`
is repeated across the dimension axis, so `np.where(~mask, position,
temp_position)` reverts a whole particle row whenever any dimension of it
violates its bound. -/
def update_position (s : Swarm) (bounds : Option (List ℚ × List ℚ)) :
    List (List ℚ) :=
  let temp_position := ewAdd s.position s.velocity
  match bounds with
  | none => temp_position
  | some (lb, ub) =>
      List.zipWith (fun oldrow trow =>
        if ((List.zipWith (fun l t => decide (l ≤ t)) lb trow).all id
            && (List.zipWith (fun t u => decide (t ≤ u)) trow ub).all id)
        then trow else oldrow)
        s.position temp_position

/-- Strict lexicographic order on (key value, index): the order in which a
deterministic nearest-neighbour query ranks candidate indices (ascending
distance, earliest index first among equal distances). -/
def lexLt (key : ℕ → ℚ) (a b : ℕ) : Prop :=
  key a < key b ∨ (key a = key b ∧ a < b)

instance (key : ℕ → ℚ) (a b : ℕ) : Decidable (lexLt key a b) :=
  inferInstanceAs (Decidable (_ ∨ _))

/-- The element of a candidate list minimal under `lexLt key`
(`none` on the empty list). -/
def argminList (key : ℕ → ℚ) : List ℕ → Option ℕ
  | [] => none
  | x :: xs =>
    match argminList key xs with
    | none => some x
    | some m => if lexLt key m x then some m else some x

/-- The `k` candidates smallest under `lexLt key`, in ascending order:
repeatedly extract the minimum. -/
def selectK (key : ℕ → ℚ) : ℕ → List ℕ → List ℕ
  | 0, _ => []
  | k + 1, l =>
    match argminList key l with
    | none => []
    | some m => m :: selectK key k (l.erase m)

/-- Comparison key for the Minkowski p-norm distance between two points, for
the supported orders p ∈ {1, 2}: the L1 distance itself for `p = 1`, and the
squared L2 distance for `p = 2` (a strictly monotone transform of the
Euclidean norm, hence ranking neighbours identically — only the ranking
reaches the query's index output). -/
def minkowskiKey (p : ℕ) (x y : List ℚ) : ℚ :=
  if p = 1 then (List.zipWith (fun a b => |a - b|) x y).sum
  else (List.zipWith (fun a b => (a - b) * (a - b)) x y).sum

/-- The index output of `cKDTree(swarm.position).query(swarm.position, p=p,
k=k)` (operators.py lines 146-147): for each particle, the indices of its `k`
nearest neighbours among all particles (itself included as a candidate), in
ascending distance order, earliest index first among exact ties. -/
def kdtreeQuery (position : List (List ℚ)) (p k : ℕ) : List (List ℕ) :=
  (List.range position.length).map fun i =>
    selectK (fun j => minkowskiKey p (position.getD i []) (position.getD j []))
      k (List.range position.length)

/-- `update_gbest_neighborhood` (operators.py lines 144-166).  For `k == 1`
the query's index result is a flat length-`n_particles` vector, and
`swarm.pbest_cost[idx][:, np.newaxis].argmin(axis=1)` takes the argmin of each
single-entry row — here, of each single-entry neighbour list.  For `k != 1`,
`idx_min` is the per-row argmin of the mapped costs and
`best_neighbor = idx[np.arange(len(idx)), idx_min]`.  Finally
`best_cost = np.min(pbest_cost[best_neighbor])` and
`best_pos = pbest_pos[np.argmin(pbest_cost[best_neighbor])]`. -/
def update_gbest_neighborhood (s : Swarm) (p k : ℕ) : List ℚ × ℚ :=
  let idx := kdtreeQuery s.position p k
  let best_neighbor : List ℕ :=
    if k = 1 then
      idx.map (fun row => argminIdx (row.map (fun j => s.pbest_cost.getD j 0)))
    else
      idx.map (fun row =>
        row.getD (argminIdx (row.map (fun j => s.pbest_cost.getD j 0))) 0)
  let best_cost := npMin (best_neighbor.map (fun j => s.pbest_cost.getD j 0))
  let best_pos :=
    s.pbest_pos.getD
      (argminIdx (best_neighbor.map (fun j => s.pbest_cost.getD j 0))) []
  (best_pos, best_cost)

/-- The per-particle best-neighbour index array of the general (`k != 1`) path
of `update_gbest_neighborhood`: for each particle, among its `k` neighbour
indices, the one whose `pbest_cost` is minimal (earliest in the
distance-sorted neighbour order on ties). -/
def bestNeighborVec (s : Swarm) (p k : ℕ) : List ℕ :=
  (kdtreeQuery s.position p k).map (fun row =>
    row.getD (argminIdx (row.map (fun j => s.pbest_cost.getD j 0))) 0)

/-- The errors a call into this backend can surface. -/
inductive PyError where
  | attributeError
  | keyError
  | valueError
  | configurationError
deriving Repr, DecidableEq

/-- The failure surface of a `update_gbest_neighborhood` call on a well-typed
swarm.  The source body performs no validation of `k` or `p` and raises
nothing itself: its `try/except` only re-raises `AttributeError` from missing
swarm fields, unreachable once the swarm record is well-typed.  The only
remaining error source is `cKDTree.query`'s own domain check on `k`
(a ValueError outside `1 <= k <= n_particles`); every other call returns the
ordinary result.  No path constructs a configuration error. -/
def update_gbest_neighborhood_run (s : Swarm) (p k : ℕ) :
    Except PyError (List ℚ × ℚ) :=
  if k = 0 ∨ s.position.length < k then Except.error PyError.valueError
  else Except.ok (update_gbest_neighborhood s p k)

/- ### Concrete inputs used by individual claims -/

/-- Two particles in two dimensions with consistent shapes; particle 0
improves on its personal best, particle 1 does not. -/
def swarmC1 : Swarm where
  position := [[9, 9], [7, 7]]
  velocity := [[0, 0], [0, 0]]
  current_cost := [2, 6]
  pbest_pos := [[1, 1], [3, 3]]
  pbest_cost := [5, 4]
  best_pos := [0, 0]
  best_cost := 0
  behavior := ⟨1, 1, 1⟩
  n_particles := 2
  dimensions := 2

/-- The scenario of the spec: 2 particles, 1 dimension,
`pbest_pos = [[0.0], [5.0]]`, `pbest_cost = [2.0, 1.0]`. -/
def swarmC2 : Swarm where
  position := [[0], [5]]
  velocity := [[0], [0]]
  current_cost := [2, 1]
  pbest_pos := [[0], [5]]
  pbest_cost := [2, 1]
  best_pos := [0]
  best_cost := 0
  behavior := ⟨1, 1, 1⟩
  n_particles := 2
  dimensions := 1

/-- One particle, two dimensions, used to exercise the velocity clamp. -/
def swarmC3 : Swarm where
  position := [[0, 0]]
  velocity := [[1, 4]]
  current_cost := [0]
  pbest_pos := [[1, 1]]
  pbest_cost := [0]
  best_pos := [2, 100]
  best_cost := 0
  behavior := ⟨1, 1, 1⟩
  n_particles := 1
  dimensions := 2

/-- One particle, two dimensions: the naive position update leaves the bounds
in the second dimension only. -/
def swarmC4 : Swarm where
  position := [[1, 1]]
  velocity := [[1, 10]]
  current_cost := [0]
  pbest_pos := [[1, 1]]
  pbest_cost := [0]
  best_pos := [0, 0]
  best_cost := 0
  behavior := ⟨1, 1, 1⟩
  n_particles := 1
  dimensions := 2

/-- Three particles on a line, pairwise-distinct positions. -/
def swarmC5 : Swarm where
  position := [[0], [1], [10]]
  velocity := [[0], [0], [0]]
  current_cost := [7, 3, 9]
  pbest_pos := [[0], [1], [10]]
  pbest_cost := [7, 3, 9]
  best_pos := [0]
  best_cost := 0
  behavior := ⟨1, 1, 1⟩
  n_particles := 3
  dimensions := 1

/-- Two particles with distinct positions; particle 1 holds the strictly
better personal best. -/
def swarmC6 : Swarm where
  position := [[0], [10]]
  velocity := [[0], [0]]
  current_cost := [5, 1]
  pbest_pos := [[0], [10]]
  pbest_cost := [5, 1]
  best_pos := [0]
  best_cost := 0
  behavior := ⟨1, 1, 1⟩
  n_particles := 2
  dimensions := 1

/-- One particle, two dimensions, nontrivial coefficients. -/
def swarmC7 : Swarm where
  position := [[1, 2]]
  velocity := [[3, 4]]
  current_cost := [0]
  pbest_pos := [[5, 6]]
  pbest_cost := [0]
  best_pos := [7, 8]
  best_cost := 0
  behavior := ⟨1/2, 1/3, 2⟩
  n_particles := 1
  dimensions := 2

/-- Two particles, one dimension, both improving their personal bests. -/
def swarmC8 : Swarm where
  position := [[4], [6]]
  velocity := [[0], [0]]
  current_cost := [1, 9]
  pbest_pos := [[2], [3]]
  pbest_cost := [5, 4]
  best_pos := [0]
  best_cost := 0
  behavior := ⟨1, 1, 1⟩
  n_particles := 2
  dimensions := 1

/-- Three particles with pairwise-distinct positions; the global minimum of
`pbest_cost` sits at particle 2, spatially far from the others. -/
def swarmC9 : Swarm where
  position := [[0], [1], [50]]
  velocity := [[0], [0], [0]]
  current_cost := [4, 6, 2]
  pbest_pos := [[0], [1], [50]]
  pbest_cost := [4, 6, 2]
  best_pos := [0]
  best_cost := 0
  behavior := ⟨1, 1, 1⟩
  n_particles := 3
  dimensions := 1

/-- Two particles; used with `k = n_particles = 2`, a value outside the range
`[1, n_particles)` that the spec declares invalid. -/
def swarmC10 : Swarm where
  position := [[0], [3]]
  velocity := [[0], [0]]
  current_cost := [8, 2]
  pbest_pos := [[0], [3]]
  pbest_cost := [8, 2]
  best_pos := [0]
  best_cost := 0
  behavior := ⟨1, 1, 1⟩
  n_particles := 2
  dimensions := 1

/- ### Basic list access lemmas -/

theorem getD_eq_of_lt {α} (l : List α) (d : α) {i : ℕ} (h : i < l.length) :
    l.getD i d = l[i] := List.getD_eq_getElem l d h

theorem getD_zipWith {α β γ} (f : α → β → γ) (a : List α) (b : List β)
    (da : α) (db : β) (dc : γ) :
    ∀ i, i < a.length → i < b.length →
      (List.zipWith f a b).getD i dc = f (a.getD i da) (b.getD i db) := by
  induction a generalizing b with
  | nil => intro i h1 _; simp at h1
  | cons x xs ih =>
    intro i h1 h2
    cases b with
    | nil => simp at h2
    | cons y ys =>
      cases i with
      | zero => simp
      | succ n =>
        simp only [List.zipWith_cons_cons, List.getD_cons_succ]
        exact ih ys n (by simpa using h1) (by simpa using h2)

theorem length_zipWith3 {α β γ δ} (f : α → β → γ → δ) :
    ∀ (a : List α) (b : List β) (c : List γ),
      (zipWith3 f a b c).length = min a.length (min b.length c.length) := by
  intro a
  induction a with
  | nil => intro b c; simp [zipWith3]
  | cons x xs ih =>
    intro b c
    cases b with
    | nil => simp [zipWith3]
    | cons y ys =>
      cases c with
      | nil => simp [zipWith3]
      | cons z zs =>
        simp only [zipWith3, List.length_cons, ih ys zs]
        omega

theorem getD_zipWith3 {α β γ δ} (f : α → β → γ → δ) (da : α) (db : β) (dc : γ) (dd : δ) :
    ∀ (a : List α) (b : List β) (c : List γ) i,
      i < a.length → i < b.length → i < c.length →
      (zipWith3 f a b c).getD i dd = f (a.getD i da) (b.getD i db) (c.getD i dc) := by
  intro a
  induction a with
  | nil => intro b c i h1 _ _; simp at h1
  | cons x xs ih =>
    intro b c i h1 h2 h3
    cases b with
    | nil => simp at h2
    | cons y ys =>
      cases c with
      | nil => simp at h3
      | cons z zs =>
        cases i with
        | zero => simp [zipWith3]
        | succ n =>
          simp only [zipWith3, List.getD_cons_succ]
          exact ih ys zs n (by simpa using h1) (by simpa using h2) (by simpa using h3)

theorem getD_map {α β} (f : α → β) (da : α) (db : β) :
    ∀ (l : List α) i, i < l.length → (l.map f).getD i db = f (l.getD i da) := by
  intro l
  induction l with
  | nil => intro i h; simp at h
  | cons x xs ih =>
    intro i h
    cases i with
    | zero => simp
    | succ n =>
      simp only [List.map_cons, List.getD_cons_succ]
      exact ih n (by simpa using h)

theorem getD_mem {α} (l : List α) (d : α) {i : ℕ} (h : i < l.length) :
    l.getD i d ∈ l := by
  rw [getD_eq_of_lt l d h]; exact List.getElem_mem h

/- ### argmin / min lemmas -/

theorem argminIdx_lt_length (l : List ℚ) (h : l ≠ []) : argminIdx l < l.length := by
  induction l with
  | nil => simp at h
  | cons x xs ih =>
    by_cases hxs : xs = []
    · subst hxs; simp [argminIdx]
    · have := ih hxs
      simp only [argminIdx, List.length_cons]
      split <;> omega

theorem foldl_min_le_init (l : List ℚ) : ∀ a : ℚ, l.foldl min a ≤ a := by
  induction l with
  | nil => intro a; simp
  | cons x xs ih =>
    intro a
    calc (x :: xs).foldl min a = xs.foldl min (min a x) := rfl
    _ ≤ min a x := ih (min a x)
    _ ≤ a := min_le_left _ _

theorem foldl_min_le_mem (l : List ℚ) : ∀ a x : ℚ, x ∈ l → l.foldl min a ≤ x := by
  induction l with
  | nil => intro a x hx; simp at hx
  | cons y ys ih =>
    intro a x hx
    rcases List.mem_cons.mp hx with h | h
    · subst h
      calc (x :: ys).foldl min a = ys.foldl min (min a x) := rfl
      _ ≤ min a x := foldl_min_le_init ys (min a x)
      _ ≤ x := min_le_right _ _
    · exact ih (min a y) x h

theorem foldl_min_mem (l : List ℚ) : ∀ a : ℚ, l.foldl min a = a ∨ l.foldl min a ∈ l := by
  induction l with
  | nil => intro a; left; rfl
  | cons x xs ih =>
    intro a
    rcases ih (min a x) with h | h
    · rcases min_cases a x with ⟨he, _⟩ | ⟨he, _⟩
      · left; simpa [List.foldl_cons, he] using h
      · right; simp only [List.foldl_cons]
        rw [h, he]; exact List.mem_cons_self x xs
    · right; exact List.mem_cons_of_mem x h

theorem npMin_le_mem (l : List ℚ) (x : ℚ) (hx : x ∈ l) : npMin l ≤ x := by
  cases l with
  | nil => simp at hx
  | cons y ys =>
    rcases List.mem_cons.mp hx with h | h
    · subst h; exact foldl_min_le_init ys x
    · exact foldl_min_le_mem ys y x h

theorem npMin_mem (l : List ℚ) (h : l ≠ []) : npMin l ∈ l := by
  cases l with
  | nil => simp at h
  | cons y ys =>
    rcases foldl_min_mem ys y with h' | h'
    · rw [npMin, h']; exact List.mem_cons_self y ys
    · exact List.mem_cons_of_mem y h'

theorem foldl_min_absorb (l : List ℚ) : ∀ a b : ℚ,
    l.foldl min (min a b) = min a (l.foldl min b) := by
  induction l with
  | nil => intro a b; rfl
  | cons x xs ih =>
    intro a b
    calc (x :: xs).foldl min (min a b) = xs.foldl min (min (min a b) x) := rfl
    _ = xs.foldl min (min a (min b x)) := by rw [min_assoc]
    _ = min a (xs.foldl min (min b x)) := ih a (min b x)
    _ = min a ((x :: xs).foldl min b) := rfl

theorem npMin_cons (x : ℚ) (xs : List ℚ) (h : xs ≠ []) :
    npMin (x :: xs) = min x (npMin xs) := by
  cases xs with
  | nil => simp at h
  | cons y ys =>
    show (y :: ys).foldl min x = min x (ys.foldl min y)
    calc (y :: ys).foldl min x = ys.foldl min (min x y) := rfl
    _ = min x (ys.foldl min y) := foldl_min_absorb ys x y

theorem getD_argminIdx_eq_npMin (l : List ℚ) (h : l ≠ []) :
    l.getD (argminIdx l) 0 = npMin l := by
  induction l with
  | nil => simp at h
  | cons x xs ih =>
    by_cases hxs : xs = []
    · subst hxs; simp [argminIdx, npMin]
    · have hlt := argminIdx_lt_length xs hxs
      have hx : xs.getD (argminIdx xs) x = xs.getD (argminIdx xs) 0 := by
        rw [getD_eq_of_lt xs x hlt, getD_eq_of_lt xs 0 hlt]
      have hmin := ih hxs
      rw [npMin_cons x xs hxs]
      simp only [argminIdx]
      by_cases hc : xs.getD (argminIdx xs) x < x
      · rw [if_pos hc, List.getD_cons_succ, hmin]
        rw [hx, hmin] at hc
        exact (min_eq_right (le_of_lt hc)).symm
      · rw [if_neg hc, List.getD_cons_zero]
        rw [hx, hmin] at hc
        exact (min_eq_left (le_of_not_lt hc)).symm

theorem argminIdx_first (l : List ℚ) :
    ∀ i, i < argminIdx l → l.getD (argminIdx l) 0 < l.getD i 0 := by
  induction l with
  | nil => intro i h; simp [argminIdx] at h
  | cons x xs ih =>
    intro i h
    simp only [argminIdx] at h ⊢
    by_cases hc : xs.getD (argminIdx xs) x < x
    · rw [if_pos hc] at h ⊢
      have hxs : xs ≠ [] := by
        intro he; subst he; simp [argminIdx] at hc
      have hlt := argminIdx_lt_length xs hxs
      have hx : xs.getD (argminIdx xs) x = xs.getD (argminIdx xs) 0 := by
        rw [getD_eq_of_lt xs x hlt, getD_eq_of_lt xs 0 hlt]
      cases i with
      | zero =>
        simp only [List.getD_cons_succ, List.getD_cons_zero]
        rw [← hx]; exact hc
      | succ n =>
        simp only [List.getD_cons_succ]
        exact ih n (by omega)
    · rw [if_neg hc] at h; omega

/- ### update_pbest: pointwise characterisation -/

theorem update_pbest_cost_getD (s : Swarm) (i : ℕ)
    (h1 : i < s.current_cost.length) (h2 : i < s.pbest_cost.length) :
    (update_pbest s).2.getD i 0 =
      if s.current_cost.getD i 0 < s.pbest_cost.getD i 0
      then s.current_cost.getD i 0 else s.pbest_cost.getD i 0 := by
  show (zipWith3 (fun m oldc newc => if m then newc else oldc)
      (List.zipWith (fun c p => decide (c < p)) s.current_cost s.pbest_cost)
      s.pbest_cost s.current_cost).getD i 0 = _
  have hm : i < (List.zipWith (fun c p => decide (c < p))
      s.current_cost s.pbest_cost).length := by
    rw [List.length_zipWith]; omega
  rw [getD_zipWith3 _ false 0 0 0 _ _ _ i hm h2 h1,
    getD_zipWith _ _ _ 0 0 false i h1 h2]
  by_cases hc : s.current_cost.getD i 0 < s.pbest_cost.getD i 0 <;> simp [hc]

theorem update_pbest_pos_getD (s : Swarm) (i : ℕ)
    (h1 : i < s.current_cost.length) (h2 : i < s.pbest_cost.length)
    (h3 : i < s.pbest_pos.length) (h4 : i < s.position.length) :
    (update_pbest s).1.getD i [] =
      if s.current_cost.getD i 0 < s.pbest_cost.getD i 0
      then s.position.getD i [] else s.pbest_pos.getD i [] := by
  show (zipWith3 (fun m oldrow newrow => if m then newrow else oldrow)
      (List.zipWith (fun c p => decide (c < p)) s.current_cost s.pbest_cost)
      s.pbest_pos s.position).getD i [] = _
  have hm : i < (List.zipWith (fun c p => decide (c < p))
      s.current_cost s.pbest_cost).length := by
    rw [List.length_zipWith]; omega
  rw [getD_zipWith3 _ false [] [] [] _ _ _ i hm h3 h4,
    getD_zipWith _ _ _ 0 0 false i h1 h2]
  by_cases hc : s.current_cost.getD i 0 < s.pbest_cost.getD i 0 <;> simp [hc]

theorem update_pbest_cost_length (s : Swarm) :
    (update_pbest s).2.length = min s.current_cost.length s.pbest_cost.length := by
  show (zipWith3 _ (List.zipWith _ s.current_cost s.pbest_cost)
      s.pbest_cost s.current_cost).length = _
  rw [length_zipWith3, List.length_zipWith]
  omega

theorem update_pbest_pos_length (s : Swarm) :
    (update_pbest s).1.length =
      min (min s.current_cost.length s.pbest_cost.length)
        (min s.pbest_pos.length s.position.length) := by
  show (zipWith3 _ (List.zipWith _ s.current_cost s.pbest_cost)
      s.pbest_pos s.position).length = _
  rw [length_zipWith3, List.length_zipWith]

/-- C1: on a shape-consistent swarm, `update_pbest` returns, per particle `i`,
a new personal-best cost equal to `min (pbest_cost i) (current_cost i)`, the
new personal-best position `position i` exactly when
`current_cost i < pbest_cost i` strictly, and on ties or worse current cost
both the old `pbest_pos i` and `pbest_cost i` carried forward unchanged. -/
theorem update_pbest_spec (s : Swarm) (n : ℕ)
    (hcc : s.current_cost.length = n) (hpc : s.pbest_cost.length = n)
    (hpp : s.pbest_pos.length = n) (hpos : s.position.length = n) :
    ∀ i, i < n →
      (update_pbest s).2.getD i 0 =
        min (s.pbest_cost.getD i 0) (s.current_cost.getD i 0) ∧
      (s.current_cost.getD i 0 < s.pbest_cost.getD i 0 →
        (update_pbest s).1.getD i [] = s.position.getD i [] ∧
        (update_pbest s).2.getD i 0 = s.current_cost.getD i 0) ∧
      (¬ s.current_cost.getD i 0 < s.pbest_cost.getD i 0 →
        (update_pbest s).1.getD i [] = s.pbest_pos.getD i [] ∧
        (update_pbest s).2.getD i 0 = s.pbest_cost.getD i 0) := by
  intro i hi
  have h1 : i < s.current_cost.length := by omega
  have h2 : i < s.pbest_cost.length := by omega
  have h3 : i < s.pbest_pos.length := by omega
  have h4 : i < s.position.length := by omega
  have hcost := update_pbest_cost_getD s i h1 h2
  have hposi := update_pbest_pos_getD s i h1 h2 h3 h4
  by_cases hc : s.current_cost.getD i 0 < s.pbest_cost.getD i 0
  · rw [hcost, hposi, if_pos hc, if_pos hc]
    exact ⟨(min_eq_right (le_of_lt hc)).symm,
      fun _ => ⟨rfl, rfl⟩, fun h => absurd hc h⟩
  · rw [hcost, hposi, if_neg hc, if_neg hc]
    exact ⟨(min_eq_left (le_of_not_lt hc)).symm,
      fun h => absurd h hc, fun _ => ⟨rfl, rfl⟩⟩

/-- Witness for C1 at `swarmC1`, particle 0. -/
theorem update_pbest_spec_witness :
    (update_pbest swarmC1).2.getD 0 0 =
      min (swarmC1.pbest_cost.getD 0 0) (swarmC1.current_cost.getD 0 0) ∧
    (swarmC1.current_cost.getD 0 0 < swarmC1.pbest_cost.getD 0 0 →
      (update_pbest swarmC1).1.getD 0 [] = swarmC1.position.getD 0 [] ∧
      (update_pbest swarmC1).2.getD 0 0 = swarmC1.current_cost.getD 0 0) ∧
    (¬ swarmC1.current_cost.getD 0 0 < swarmC1.pbest_cost.getD 0 0 →
      (update_pbest swarmC1).1.getD 0 [] = swarmC1.pbest_pos.getD 0 [] ∧
      (update_pbest swarmC1).2.getD 0 0 = swarmC1.pbest_cost.getD 0 0) :=
  update_pbest_spec swarmC1 2 rfl rfl rfl rfl 0 (by decide)

/-- C2: `update_gbest` returns the minimum of a nonempty `pbest_cost` as the
best cost, the row of `pbest_pos` at the index of that minimum as the best
position, with the lowest index winning on ties (every entry before the chosen
index is strictly larger); and on the concrete scenario with
`pbest_pos = [[0], [5]]`, `pbest_cost = [2, 1]` it returns `([5], 1)`. -/
theorem update_gbest_spec (s : Swarm) (h : s.pbest_cost ≠ []) :
    ((update_gbest s).2 = npMin s.pbest_cost ∧
     (∀ i, i < s.pbest_cost.length →
       (update_gbest s).2 ≤ s.pbest_cost.getD i 0) ∧
     argminIdx s.pbest_cost < s.pbest_cost.length ∧
     (update_gbest s).2 = s.pbest_cost.getD (argminIdx s.pbest_cost) 0 ∧
     (∀ i, i < argminIdx s.pbest_cost →
       (update_gbest s).2 < s.pbest_cost.getD i 0) ∧
     (update_gbest s).1 = s.pbest_pos.getD (argminIdx s.pbest_cost) []) ∧
    update_gbest swarmC2 = ([5], 1) := by
  have hmin := getD_argminIdx_eq_npMin s.pbest_cost h
  refine ⟨⟨rfl, ?_, argminIdx_lt_length s.pbest_cost h, hmin.symm, ?_, rfl⟩, by decide⟩
  · intro i hi
    exact npMin_le_mem s.pbest_cost _ (getD_mem s.pbest_cost 0 hi)
  · intro i hi
    have := argminIdx_first s.pbest_cost i hi
    rw [hmin] at this
    exact this

/-- Witness for C2 at `swarmC2`. -/
theorem update_gbest_spec_witness :
    ((update_gbest swarmC2).2 = npMin swarmC2.pbest_cost ∧
     (∀ i, i < swarmC2.pbest_cost.length →
       (update_gbest swarmC2).2 ≤ swarmC2.pbest_cost.getD i 0) ∧
     argminIdx swarmC2.pbest_cost < swarmC2.pbest_cost.length ∧
     (update_gbest swarmC2).2 =
       swarmC2.pbest_cost.getD (argminIdx swarmC2.pbest_cost) 0 ∧
     (∀ i, i < argminIdx swarmC2.pbest_cost →
       (update_gbest swarmC2).2 < swarmC2.pbest_cost.getD i 0) ∧
     (update_gbest swarmC2).1 =
       swarmC2.pbest_pos.getD (argminIdx swarmC2.pbest_cost) []) ∧
    update_gbest swarmC2 = ([5], 1) :=
  update_gbest_spec swarmC2 (by decide)

/-- C8: `update_pbest` is idempotent: writing the returned `pbest_pos` and
`pbest_cost` back into the swarm and applying `update_pbest` again with the
same `current_cost` returns exactly the same pair. -/
theorem update_pbest_idem (s : Swarm) :
    update_pbest { s with pbest_pos := (update_pbest s).1,
                          pbest_cost := (update_pbest s).2 }
      = update_pbest s := by
  have hclen := update_pbest_cost_length s
  have hplen := update_pbest_pos_length s
  -- the same facts at the written-back swarm, with its fields reduced
  have hclen' : (update_pbest { s with pbest_pos := (update_pbest s).1,
                                       pbest_cost := (update_pbest s).2 }).2.length =
      min s.current_cost.length (update_pbest s).2.length :=
    update_pbest_cost_length _
  have hplen' : (update_pbest { s with pbest_pos := (update_pbest s).1,
                                       pbest_cost := (update_pbest s).2 }).1.length =
      min (min s.current_cost.length (update_pbest s).2.length)
        (min (update_pbest s).1.length s.position.length) :=
    update_pbest_pos_length _
  -- the re-built mask is false wherever defined
  have hnc : ∀ i, i < s.current_cost.length → i < s.pbest_cost.length →
      ¬ s.current_cost.getD i 0 < (update_pbest s).2.getD i 0 := by
    intro i h1 h2
    rw [update_pbest_cost_getD s i h1 h2]
    by_cases hc : s.current_cost.getD i 0 < s.pbest_cost.getD i 0
    · rw [if_pos hc]; exact lt_irrefl _
    · rw [if_neg hc]; exact hc
  have hcost' : ∀ i, i < s.current_cost.length → i < (update_pbest s).2.length →
      (update_pbest { s with pbest_pos := (update_pbest s).1,
                             pbest_cost := (update_pbest s).2 }).2.getD i 0 =
        if s.current_cost.getD i 0 < (update_pbest s).2.getD i 0
        then s.current_cost.getD i 0 else (update_pbest s).2.getD i 0 :=
    fun i h1 h2 => update_pbest_cost_getD _ i h1 h2
  have hpos' : ∀ i, i < s.current_cost.length → i < (update_pbest s).2.length →
      i < (update_pbest s).1.length → i < s.position.length →
      (update_pbest { s with pbest_pos := (update_pbest s).1,
                             pbest_cost := (update_pbest s).2 }).1.getD i [] =
        if s.current_cost.getD i 0 < (update_pbest s).2.getD i 0
        then s.position.getD i [] else (update_pbest s).1.getD i [] :=
    fun i h1 h2 h3 h4 => update_pbest_pos_getD _ i h1 h2 h3 h4
  have hc2 : (update_pbest { s with pbest_pos := (update_pbest s).1,
                                    pbest_cost := (update_pbest s).2 }).2 = (update_pbest s).2 := by
    apply List.ext_getElem
    · rw [hclen', hclen]; omega
    · intro i hl hr
      have h1 : i < s.current_cost.length := by rw [hclen', hclen] at hl; omega
      have h2 : i < s.pbest_cost.length := by rw [hclen', hclen] at hl; omega
      have h2' : i < (update_pbest s).2.length := by rw [hclen]; omega
      rw [← getD_eq_of_lt _ 0 hl, ← getD_eq_of_lt _ 0 hr,
        hcost' i h1 h2', if_neg (hnc i h1 h2)]
  have hc1 : (update_pbest { s with pbest_pos := (update_pbest s).1,
                                    pbest_cost := (update_pbest s).2 }).1 = (update_pbest s).1 := by
    apply List.ext_getElem
    · rw [hplen', hplen, hclen]; omega
    · intro i hl hr
      have hb : i < min (min s.current_cost.length s.pbest_cost.length)
          (min s.pbest_pos.length s.position.length) := by
        rw [hplen', hplen, hclen] at hl; omega
      have h1 : i < s.current_cost.length := by omega
      have h2 : i < s.pbest_cost.length := by omega
      have h2' : i < (update_pbest s).2.length := by rw [hclen]; omega
      have h3' : i < (update_pbest s).1.length := by rw [hplen]; omega
      have h4 : i < s.position.length := by omega
      rw [← getD_eq_of_lt _ [] hl, ← getD_eq_of_lt _ [] hr,
        hpos' i h1 h2' h3' h4, if_neg (hnc i h1 h2)]
  exact Prod.ext hc1 hc2

/- ### Matrix row and cell access -/

theorem rowsShape_getD {m : List (List ℚ)} {n d : ℕ} (h : rowsShape m n d)
    {i : ℕ} (hi : i < n) : (m.getD i []).length = d :=
  h.2 _ (getD_mem m [] (by rw [h.1]; omega))

theorem row_ewAdd (A B : List (List ℚ)) (i : ℕ)
    (hA : i < A.length) (hB : i < B.length) :
    (ewAdd A B).getD i [] = List.zipWith (· + ·) (A.getD i []) (B.getD i []) :=
  getD_zipWith _ A B [] [] [] i hA hB

theorem row_ewMul (A B : List (List ℚ)) (i : ℕ)
    (hA : i < A.length) (hB : i < B.length) :
    (ewMul A B).getD i [] = List.zipWith (· * ·) (A.getD i []) (B.getD i []) :=
  getD_zipWith _ A B [] [] [] i hA hB

theorem row_ewSub (A B : List (List ℚ)) (i : ℕ)
    (hA : i < A.length) (hB : i < B.length) :
    (ewSub A B).getD i [] = List.zipWith (· - ·) (A.getD i []) (B.getD i []) :=
  getD_zipWith _ A B [] [] [] i hA hB

theorem row_scalarMul (c : ℚ) (m : List (List ℚ)) (i : ℕ) (h : i < m.length) :
    (scalarMul c m).getD i [] = (m.getD i []).map (fun x => c * x) :=
  getD_map _ [] [] m i h

theorem row_replicate (v : List ℚ) (n i : ℕ) (h : i < n) :
    (List.replicate n v).getD i [] = v := by
  rw [getD_eq_of_lt _ [] (by simpa using h)]
  exact List.getElem_replicate ..

/-- Shape of the unclamped `update_velocity` output: `n` rows. -/
theorem update_velocity_none_length (s : Swarm) (r1 r2 : List (List ℚ)) (n d : ℕ)
    (hpos : rowsShape s.position n d) (hvel : rowsShape s.velocity n d)
    (hpb : rowsShape s.pbest_pos n d) (hr1 : rowsShape r1 n d)
    (hr2 : rowsShape r2 n d) :
    (update_velocity s none r1 r2).length = n := by
  show (ewAdd (ewAdd (scalarMul s.behavior.w s.velocity)
      (ewMul (scalarMul s.behavior.c1 r1) (ewSub s.pbest_pos s.position)))
      (ewMul (scalarMul s.behavior.c2 r2)
        (ewSub (List.replicate s.position.length s.best_pos) s.position))).length = n
  simp only [ewAdd, ewMul, ewSub, scalarMul, List.length_zipWith, List.length_map,
    List.length_replicate]
  rw [hpos.1, hvel.1, hpb.1, hr1.1, hr2.1]
  omega

/-- The row of the unclamped `update_velocity` output at a particle index. -/
theorem update_velocity_none_row (s : Swarm) (r1 r2 : List (List ℚ)) (n d : ℕ)
    (hpos : rowsShape s.position n d) (hvel : rowsShape s.velocity n d)
    (hpb : rowsShape s.pbest_pos n d) (hr1 : rowsShape r1 n d)
    (hr2 : rowsShape r2 n d) (i : ℕ) (hi : i < n) :
    (update_velocity s none r1 r2).getD i [] =
      List.zipWith (· + ·)
        (List.zipWith (· + ·)
          ((s.velocity.getD i []).map (fun x => s.behavior.w * x))
          (List.zipWith (· * ·)
            ((r1.getD i []).map (fun x => s.behavior.c1 * x))
            (List.zipWith (· - ·) (s.pbest_pos.getD i []) (s.position.getD i []))))
        (List.zipWith (· * ·)
          ((r2.getD i []).map (fun x => s.behavior.c2 * x))
          (List.zipWith (· - ·) s.best_pos (s.position.getD i []))) := by
  have hiv : i < s.velocity.length := by rw [hvel.1]; omega
  have hip : i < s.position.length := by rw [hpos.1]; omega
  have hib : i < s.pbest_pos.length := by rw [hpb.1]; omega
  have hir1 : i < r1.length := by rw [hr1.1]; omega
  have hir2 : i < r2.length := by rw [hr2.1]; omega
  have h1 : (scalarMul s.behavior.w s.velocity).getD i [] =
      (s.velocity.getD i []).map (fun x => s.behavior.w * x) :=
    row_scalarMul _ _ i hiv
  have h2 : (ewSub s.pbest_pos s.position).getD i [] =
      List.zipWith (· - ·) (s.pbest_pos.getD i []) (s.position.getD i []) :=
    row_ewSub _ _ i hib hip
  have h3 : (ewMul (scalarMul s.behavior.c1 r1) (ewSub s.pbest_pos s.position)).getD i [] =
      List.zipWith (· * ·) ((r1.getD i []).map (fun x => s.behavior.c1 * x))
        (List.zipWith (· - ·) (s.pbest_pos.getD i []) (s.position.getD i [])) := by
    rw [row_ewMul _ _ i
        (by simp only [scalarMul, List.length_map]; omega)
        (by simp only [ewSub, List.length_zipWith]; omega),
      row_scalarMul _ _ i hir1, h2]
  have h4 : (ewSub (List.replicate s.position.length s.best_pos) s.position).getD i [] =
      List.zipWith (· - ·) s.best_pos (s.position.getD i []) := by
    rw [row_ewSub _ _ i (by simp only [List.length_replicate]; omega) hip,
      row_replicate _ _ i hip]
  have h5 : (ewMul (scalarMul s.behavior.c2 r2)
        (ewSub (List.replicate s.position.length s.best_pos) s.position)).getD i [] =
      List.zipWith (· * ·) ((r2.getD i []).map (fun x => s.behavior.c2 * x))
        (List.zipWith (· - ·) s.best_pos (s.position.getD i [])) := by
    rw [row_ewMul _ _ i
        (by simp only [scalarMul, List.length_map]; omega)
        (by simp only [ewSub, List.length_zipWith, List.length_replicate]; omega),
      row_scalarMul _ _ i hir2, h4]
  have h6 : (ewAdd (scalarMul s.behavior.w s.velocity)
        (ewMul (scalarMul s.behavior.c1 r1) (ewSub s.pbest_pos s.position))).getD i [] =
      List.zipWith (· + ·)
        ((s.velocity.getD i []).map (fun x => s.behavior.w * x))
        (List.zipWith (· * ·) ((r1.getD i []).map (fun x => s.behavior.c1 * x))
          (List.zipWith (· - ·) (s.pbest_pos.getD i []) (s.position.getD i []))) := by
    rw [row_ewAdd _ _ i
        (by simp only [scalarMul, List.length_map]; omega)
        (by simp only [ewMul, ewSub, scalarMul, List.length_zipWith, List.length_map]; omega),
      h1, h3]
  show (ewAdd (ewAdd (scalarMul s.behavior.w s.velocity)
      (ewMul (scalarMul s.behavior.c1 r1) (ewSub s.pbest_pos s.position)))
      (ewMul (scalarMul s.behavior.c2 r2)
        (ewSub (List.replicate s.position.length s.best_pos) s.position))).getD i [] = _
  rw [row_ewAdd _ _ i
      (by simp only [ewAdd, ewMul, ewSub, scalarMul, List.length_zipWith,
        List.length_map]; omega)
      (by simp only [ewMul, ewSub, scalarMul, List.length_zipWith, List.length_map,
        List.length_replicate]; omega),
    h6, h5]

/-- Shape of the unclamped `update_velocity` output: rows of length `d`. -/
theorem update_velocity_none_row_length (s : Swarm) (r1 r2 : List (List ℚ)) (n d : ℕ)
    (hpos : rowsShape s.position n d) (hvel : rowsShape s.velocity n d)
    (hpb : rowsShape s.pbest_pos n d) (hr1 : rowsShape r1 n d)
    (hr2 : rowsShape r2 n d) (hbp : s.best_pos.length = d) (i : ℕ) (hi : i < n) :
    ((update_velocity s none r1 r2).getD i []).length = d := by
  rw [update_velocity_none_row s r1 r2 n d hpos hvel hpb hr1 hr2 i hi]
  have hdv := rowsShape_getD hvel hi
  have hdp := rowsShape_getD hpos hi
  have hdb := rowsShape_getD hpb hi
  have hdr1 := rowsShape_getD hr1 hi
  have hdr2 := rowsShape_getD hr2 hi
  simp only [List.length_zipWith, List.length_map]
  omega

/-- The unclamped velocity formula, per cell: inertia + cognitive + social
(the `clamp is None` branch of `update_velocity`). -/
theorem cell_update_velocity_none (s : Swarm) (r1 r2 : List (List ℚ)) (n d : ℕ)
    (hpos : rowsShape s.position n d) (hvel : rowsShape s.velocity n d)
    (hpb : rowsShape s.pbest_pos n d) (hr1 : rowsShape r1 n d)
    (hr2 : rowsShape r2 n d) (hbp : s.best_pos.length = d) :
    ∀ i j, i < n → j < d →
      cell (update_velocity s none r1 r2) i j =
        s.behavior.w * cell s.velocity i j
        + s.behavior.c1 * cell r1 i j *
            (cell s.pbest_pos i j - cell s.position i j)
        + s.behavior.c2 * cell r2 i j *
            (s.best_pos.getD j 0 - cell s.position i j) := by
  intro i j hi hj
  have hdv := rowsShape_getD hvel hi
  have hdp := rowsShape_getD hpos hi
  have hdb := rowsShape_getD hpb hi
  have hdr1 := rowsShape_getD hr1 hi
  have hdr2 := rowsShape_getD hr2 hi
  have e1 : (List.zipWith (· - ·) (s.pbest_pos.getD i [])
        (s.position.getD i [])).getD j 0 =
      cell s.pbest_pos i j - cell s.position i j :=
    getD_zipWith _ _ _ 0 0 0 j (by omega) (by omega)
  have e2 : (List.zipWith (· - ·) s.best_pos (s.position.getD i [])).getD j 0 =
      s.best_pos.getD j 0 - cell s.position i j :=
    getD_zipWith _ _ _ 0 0 0 j (by omega) (by omega)
  have e3 : ((r1.getD i []).map (fun x => s.behavior.c1 * x)).getD j 0 =
      s.behavior.c1 * cell r1 i j :=
    getD_map _ 0 0 _ j (by omega)
  have e4 : ((r2.getD i []).map (fun x => s.behavior.c2 * x)).getD j 0 =
      s.behavior.c2 * cell r2 i j :=
    getD_map _ 0 0 _ j (by omega)
  have e5 : ((s.velocity.getD i []).map (fun x => s.behavior.w * x)).getD j 0 =
      s.behavior.w * cell s.velocity i j :=
    getD_map _ 0 0 _ j (by omega)
  have e6 : (List.zipWith (· * ·) ((r1.getD i []).map (fun x => s.behavior.c1 * x))
        (List.zipWith (· - ·) (s.pbest_pos.getD i [])
          (s.position.getD i []))).getD j 0 =
      s.behavior.c1 * cell r1 i j * (cell s.pbest_pos i j - cell s.position i j) := by
    rw [getD_zipWith _ _ _ 0 0 0 j
        (by simp only [List.length_map]; omega)
        (by simp only [List.length_zipWith]; omega),
      e3, e1]
  have e7 : (List.zipWith (· * ·) ((r2.getD i []).map (fun x => s.behavior.c2 * x))
        (List.zipWith (· - ·) s.best_pos (s.position.getD i []))).getD j 0 =
      s.behavior.c2 * cell r2 i j * (s.best_pos.getD j 0 - cell s.position i j) := by
    rw [getD_zipWith _ _ _ 0 0 0 j
        (by simp only [List.length_map]; omega)
        (by simp only [List.length_zipWith]; omega),
      e4, e2]
  have e8 : (List.zipWith (· + ·)
        ((s.velocity.getD i []).map (fun x => s.behavior.w * x))
        (List.zipWith (· * ·) ((r1.getD i []).map (fun x => s.behavior.c1 * x))
          (List.zipWith (· - ·) (s.pbest_pos.getD i [])
            (s.position.getD i [])))).getD j 0 =
      s.behavior.w * cell s.velocity i j
        + s.behavior.c1 * cell r1 i j *
            (cell s.pbest_pos i j - cell s.position i j) := by
    rw [getD_zipWith _ _ _ 0 0 0 j
        (by simp only [List.length_map]; omega)
        (by simp only [List.length_zipWith, List.length_map]; omega),
      e5, e6]
  show ((update_velocity s none r1 r2).getD i []).getD j 0 = _
  rw [update_velocity_none_row s r1 r2 n d hpos hvel hpb hr1 hr2 i hi,
    getD_zipWith _ _ _ 0 0 0 j
      (by simp only [List.length_zipWith, List.length_map]; omega)
      (by simp only [List.length_zipWith, List.length_map]; omega),
    e8, e7]

/-- C7: with `clamp = None` and the random draw matrices `r1`, `r2` explicit,
`update_velocity` returns, at every (particle, dimension) cell, exactly
`w * velocity + c1 * r1 * (pbest_pos - position) + c2 * r2 *
(best_pos - position)`, with `best_pos` broadcast across all particles and no
modification after the formula; the output has the swarm's `(n, d)` shape. -/
theorem update_velocity_none_spec (s : Swarm) (r1 r2 : List (List ℚ)) (n d : ℕ)
    (hpos : rowsShape s.position n d) (hvel : rowsShape s.velocity n d)
    (hpb : rowsShape s.pbest_pos n d) (hr1 : rowsShape r1 n d)
    (hr2 : rowsShape r2 n d) (hbp : s.best_pos.length = d) :
    (update_velocity s none r1 r2).length = n ∧
    (∀ i, i < n → ((update_velocity s none r1 r2).getD i []).length = d) ∧
    ∀ i j, i < n → j < d →
      cell (update_velocity s none r1 r2) i j =
        s.behavior.w * cell s.velocity i j
        + s.behavior.c1 * cell r1 i j *
            (cell s.pbest_pos i j - cell s.position i j)
        + s.behavior.c2 * cell r2 i j *
            (s.best_pos.getD j 0 - cell s.position i j) :=
  ⟨update_velocity_none_length s r1 r2 n d hpos hvel hpb hr1 hr2,
   fun i hi => update_velocity_none_row_length s r1 r2 n d hpos hvel hpb hr1 hr2 hbp i hi,
   cell_update_velocity_none s r1 r2 n d hpos hvel hpb hr1 hr2 hbp⟩

/-- Witness for C7 at `swarmC7` with concrete draw matrices. -/
theorem update_velocity_none_spec_witness :
    (update_velocity swarmC7 none [[1, 1/4]] [[1/2, 1]]).length = 1 ∧
    (∀ i, i < 1 →
      ((update_velocity swarmC7 none [[1, 1/4]] [[1/2, 1]]).getD i []).length = 2) ∧
    ∀ i j, i < 1 → j < 2 →
      cell (update_velocity swarmC7 none [[1, 1/4]] [[1/2, 1]]) i j =
        swarmC7.behavior.w * cell swarmC7.velocity i j
        + swarmC7.behavior.c1 * cell [[1, 1/4]] i j *
            (cell swarmC7.pbest_pos i j - cell swarmC7.position i j)
        + swarmC7.behavior.c2 * cell [[1/2, 1]] i j *
            (swarmC7.best_pos.getD j 0 - cell swarmC7.position i j) :=
  update_velocity_none_spec swarmC7 [[1, 1/4]] [[1/2, 1]] 1 2
    (by decide) (by decide) (by decide) (by decide) (by decide) (by decide)

/-- C3: with a clamp `(min_v, max_v)`, `update_velocity` applies per-cell
rejection: wherever the proposed value
`w * velocity + c1 * r1 * (pbest_pos - position) + c2 * r2 * (best_pos -
position)` lies within `[min_v, max_v]` the output cell is that value, and
otherwise the output cell is exactly the old velocity cell — never a value
truncated to the clamp boundary. -/
theorem update_velocity_clamp_spec (s : Swarm) (min_v max_v : ℚ)
    (r1 r2 : List (List ℚ)) (n d : ℕ)
    (hpos : rowsShape s.position n d) (hvel : rowsShape s.velocity n d)
    (hpb : rowsShape s.pbest_pos n d) (hr1 : rowsShape r1 n d)
    (hr2 : rowsShape r2 n d) (hbp : s.best_pos.length = d) :
    ∀ i j, i < n → j < d →
      cell (update_velocity s (some (min_v, max_v)) r1 r2) i j =
        if min_v ≤ s.behavior.w * cell s.velocity i j
              + s.behavior.c1 * cell r1 i j *
                  (cell s.pbest_pos i j - cell s.position i j)
              + s.behavior.c2 * cell r2 i j *
                  (s.best_pos.getD j 0 - cell s.position i j)
           ∧ s.behavior.w * cell s.velocity i j
              + s.behavior.c1 * cell r1 i j *
                  (cell s.pbest_pos i j - cell s.position i j)
              + s.behavior.c2 * cell r2 i j *
                  (s.best_pos.getD j 0 - cell s.position i j) ≤ max_v
        then s.behavior.w * cell s.velocity i j
              + s.behavior.c1 * cell r1 i j *
                  (cell s.pbest_pos i j - cell s.position i j)
              + s.behavior.c2 * cell r2 i j *
                  (s.best_pos.getD j 0 - cell s.position i j)
        else cell s.velocity i j := by
  intro i j hi hj
  have hiv : i < s.velocity.length := by rw [hvel.1]; omega
  have hdv := rowsShape_getD hvel hi
  have htmp := cell_update_velocity_none s r1 r2 n d hpos hvel hpb hr1 hr2 hbp i j hi hj
  have hlen := update_velocity_none_length s r1 r2 n d hpos hvel hpb hr1 hr2
  have hrowlen :=
    update_velocity_none_row_length s r1 r2 n d hpos hvel hpb hr1 hr2 hbp i hi
  have hclamp : cell (update_velocity s (some (min_v, max_v)) r1 r2) i j =
      (fun v t => if min_v ≤ t ∧ t ≤ max_v then t else v)
        (cell s.velocity i j) (cell (update_velocity s none r1 r2) i j) := by
    show cell (List.zipWith (List.zipWith (fun v t =>
        if min_v ≤ t ∧ t ≤ max_v then t else v))
        s.velocity (update_velocity s none r1 r2)) i j = _
    unfold cell
    rw [getD_zipWith _ _ _ [] [] [] i hiv (by omega),
      getD_zipWith _ _ _ 0 0 0 j (by omega) (by omega)]
  rw [hclamp]
  simp only [htmp]

/-- Witness for C3 at `swarmC3` with concrete draw matrices, cell (0, 1)
(where the proposed value exceeds the clamp and the old velocity survives). -/
theorem update_velocity_clamp_spec_witness :
    cell (update_velocity swarmC3 (some (-2, 2)) [[1, 1]] [[1, 1]]) 0 1 =
      if (-2 : ℚ) ≤ swarmC3.behavior.w * cell swarmC3.velocity 0 1
            + swarmC3.behavior.c1 * cell [[1, 1]] 0 1 *
                (cell swarmC3.pbest_pos 0 1 - cell swarmC3.position 0 1)
            + swarmC3.behavior.c2 * cell [[1, 1]] 0 1 *
                (swarmC3.best_pos.getD 1 0 - cell swarmC3.position 0 1)
         ∧ swarmC3.behavior.w * cell swarmC3.velocity 0 1
            + swarmC3.behavior.c1 * cell [[1, 1]] 0 1 *
                (cell swarmC3.pbest_pos 0 1 - cell swarmC3.position 0 1)
            + swarmC3.behavior.c2 * cell [[1, 1]] 0 1 *
                (swarmC3.best_pos.getD 1 0 - cell swarmC3.position 0 1) ≤ 2
      then swarmC3.behavior.w * cell swarmC3.velocity 0 1
            + swarmC3.behavior.c1 * cell [[1, 1]] 0 1 *
                (cell swarmC3.pbest_pos 0 1 - cell swarmC3.position 0 1)
            + swarmC3.behavior.c2 * cell [[1, 1]] 0 1 *
                (swarmC3.best_pos.getD 1 0 - cell swarmC3.position 0 1)
      else cell swarmC3.velocity 0 1 :=
  update_velocity_clamp_spec swarmC3 (-2) 2 [[1, 1]] [[1, 1]] 1 2
    (by decide) (by decide) (by decide) (by decide) (by decide) (by decide)
    0 1 (by decide) (by decide)

/- ### update_position (C4) -/

theorem all_zipWith_decide {P : ℚ → ℚ → Prop} [DecidableRel P] :
    ∀ (a b : List ℚ),
      ((List.zipWith (fun x y => decide (P x y)) a b).all id = true ↔
        ∀ j, j < a.length → j < b.length → P (a.getD j 0) (b.getD j 0)) := by
  intro a
  induction a with
  | nil => intro b; simp
  | cons x xs ih =>
    intro b
    cases b with
    | nil => simp
    | cons y ys =>
      simp only [List.zipWith_cons_cons, List.all_cons, Bool.and_eq_true, id,
        decide_eq_true_eq, ih ys]
      constructor
      · rintro ⟨hxy, hrest⟩ j hj1 hj2
        cases j with
        | zero => simpa using hxy
        | succ m =>
          simp only [List.getD_cons_succ]
          exact hrest m (by simpa using hj1) (by simpa using hj2)
      · intro h
        refine ⟨by simpa using h 0 (by simp) (by simp), fun m h1 h2 => ?_⟩
        have := h (m + 1) (by simpa using h1) (by simpa using h2)
        simpa using this

/-- C4: with bounds `(lb, ub)`, `update_position` applies all-or-nothing
per-particle rejection: if every dimension of `position[i] + velocity[i]` lies
within `[lb, ub]` the output row is that sum; if any dimension violates its
bound the entire output row is the old `position[i]`, including dimensions
individually within bounds. -/
theorem update_position_bounds_spec (s : Swarm) (lb ub : List ℚ) (n d : ℕ)
    (hpos : rowsShape s.position n d) (hvel : rowsShape s.velocity n d)
    (hlb : lb.length = d) (hub : ub.length = d) :
    ∀ i, i < n →
      ((∀ j, j < d →
          lb.getD j 0 ≤ cell s.position i j + cell s.velocity i j ∧
          cell s.position i j + cell s.velocity i j ≤ ub.getD j 0) →
        (update_position s (some (lb, ub))).getD i [] =
          List.zipWith (· + ·) (s.position.getD i []) (s.velocity.getD i [])) ∧
      ((∃ j, j < d ∧
          (cell s.position i j + cell s.velocity i j < lb.getD j 0 ∨
           ub.getD j 0 < cell s.position i j + cell s.velocity i j)) →
        (update_position s (some (lb, ub))).getD i [] = s.position.getD i []) := by
  intro i hi
  have hip : i < s.position.length := by rw [hpos.1]; omega
  have hiv : i < s.velocity.length := by rw [hvel.1]; omega
  have hdp := rowsShape_getD hpos hi
  have hdv := rowsShape_getD hvel hi
  have hitemp : i < (ewAdd s.position s.velocity).length := by
    simp only [ewAdd, List.length_zipWith]; omega
  have hrowtemp : (ewAdd s.position s.velocity).getD i [] =
      List.zipWith (· + ·) (s.position.getD i []) (s.velocity.getD i []) :=
    row_ewAdd _ _ i hip hiv
  have hcelltemp : ∀ j, j < d →
      (List.zipWith (· + ·) (s.position.getD i []) (s.velocity.getD i [])).getD j 0 =
        cell s.position i j + cell s.velocity i j := by
    intro j hj
    exact getD_zipWith _ _ _ 0 0 0 j (by omega) (by omega)
  have hout : (update_position s (some (lb, ub))).getD i [] =
      if ((List.zipWith (fun l t => decide (l ≤ t)) lb
            ((ewAdd s.position s.velocity).getD i [])).all id
          && (List.zipWith (fun t u => decide (t ≤ u))
            ((ewAdd s.position s.velocity).getD i []) ub).all id)
      then (ewAdd s.position s.velocity).getD i []
      else s.position.getD i [] := by
    show (List.zipWith (fun oldrow trow =>
        if ((List.zipWith (fun l t => decide (l ≤ t)) lb trow).all id
            && (List.zipWith (fun t u => decide (t ≤ u)) trow ub).all id)
        then trow else oldrow)
        s.position (ewAdd s.position s.velocity)).getD i [] = _
    exact getD_zipWith _ _ _ [] [] [] i hip hitemp
  rw [hout, hrowtemp]
  have hlentemp : (List.zipWith (· + ·) (s.position.getD i [])
      (s.velocity.getD i [])).length = d := by
    simp only [List.length_zipWith]; omega
  constructor
  · intro hfeas
    have h1 : (List.zipWith (fun l t => decide (l ≤ t)) lb
        (List.zipWith (· + ·) (s.position.getD i []) (s.velocity.getD i []))).all id
          = true := by
      rw [all_zipWith_decide]
      intro j hj1 hj2
      rw [hcelltemp j (by omega)]
      exact (hfeas j (by omega)).1
    have h2 : (List.zipWith (fun t u => decide (t ≤ u))
        (List.zipWith (· + ·) (s.position.getD i []) (s.velocity.getD i [])) ub).all id
          = true := by
      rw [all_zipWith_decide]
      intro j hj1 hj2
      rw [hcelltemp j (by omega)]
      exact (hfeas j (by omega)).2
    rw [h1, h2]
    simp
  · rintro ⟨j, hj, hviol⟩
    have : ¬ ((List.zipWith (fun l t => decide (l ≤ t)) lb
        (List.zipWith (· + ·) (s.position.getD i []) (s.velocity.getD i []))).all id
        && (List.zipWith (fun t u => decide (t ≤ u))
        (List.zipWith (· + ·) (s.position.getD i []) (s.velocity.getD i [])) ub).all id)
        = true := by
      rw [Bool.and_eq_true]
      rintro ⟨h1, h2⟩
      rw [all_zipWith_decide] at h1 h2
      have hc1 := h1 j (by omega) (by omega)
      have hc2 := h2 j (by omega) (by omega)
      rw [hcelltemp j hj] at hc1 hc2
      rcases hviol with hv | hv
      · exact absurd hc1 (not_le.mpr hv)
      · exact absurd hc2 (not_le.mpr hv)
    rw [if_neg (by simpa using this)]

/-- Witness for C4 at `swarmC4` with bounds rejecting the whole row: the
proposed row `[2, 11]` violates the upper bound `5` in dimension 1 only, yet
dimension 0 also reverts. -/
theorem update_position_bounds_spec_witness :
    ((∀ j, j < 2 →
        ([0, 0] : List ℚ).getD j 0 ≤
          cell swarmC4.position 0 j + cell swarmC4.velocity 0 j ∧
        cell swarmC4.position 0 j + cell swarmC4.velocity 0 j ≤
          ([5, 5] : List ℚ).getD j 0) →
      (update_position swarmC4 (some ([0, 0], [5, 5]))).getD 0 [] =
        List.zipWith (· + ·) (swarmC4.position.getD 0 []) (swarmC4.velocity.getD 0 [])) ∧
    ((∃ j, j < 2 ∧
        (cell swarmC4.position 0 j + cell swarmC4.velocity 0 j <
          ([0, 0] : List ℚ).getD j 0 ∨
         ([5, 5] : List ℚ).getD j 0 <
          cell swarmC4.position 0 j + cell swarmC4.velocity 0 j)) →
      (update_position swarmC4 (some ([0, 0], [5, 5]))).getD 0 [] =
        swarmC4.position.getD 0 []) :=
  update_position_bounds_spec swarmC4 [0, 0] [5, 5] 1 2
    (by decide) (by decide) (by decide) (by decide) 0 (by decide)

/- ### Nearest-neighbour selection order -/

theorem lexLt_irrefl (key : ℕ → ℚ) (a : ℕ) : ¬ lexLt key a a := by
  rintro (h | ⟨_, h⟩)
  · exact lt_irrefl _ h
  · exact lt_irrefl _ h

theorem lexLt_trans {key : ℕ → ℚ} {a b c : ℕ}
    (h1 : lexLt key a b) (h2 : lexLt key b c) : lexLt key a c := by
  rcases h1 with h1 | ⟨e1, l1⟩ <;> rcases h2 with h2 | ⟨e2, l2⟩
  · exact Or.inl (lt_trans h1 h2)
  · exact Or.inl (e2 ▸ h1)
  · exact Or.inl (e1 ▸ h2)
  · exact Or.inr ⟨e1.trans e2, lt_trans l1 l2⟩

theorem lexLt_of_not {key : ℕ → ℚ} {a b : ℕ} (hne : a ≠ b)
    (h : ¬ lexLt key a b) : lexLt key b a := by
  rcases lt_trichotomy (key a) (key b) with h1 | h1 | h1
  · exact absurd (Or.inl h1) h
  · rcases Nat.lt_or_ge a b with h2 | h2
    · exact absurd (Or.inr ⟨h1, h2⟩) h
    · exact Or.inr ⟨h1.symm, by omega⟩
  · exact Or.inl h1

theorem argminList_mem (key : ℕ → ℚ) :
    ∀ (l : List ℕ) (m : ℕ), argminList key l = some m → m ∈ l := by
  intro l
  induction l with
  | nil => intro m h; simp [argminList] at h
  | cons x xs ih =>
    intro m h
    simp only [argminList] at h
    cases hxs : argminList key xs with
    | none =>
      simp only [hxs, Option.some.injEq] at h
      exact h ▸ List.mem_cons_self x xs
    | some m' =>
      by_cases hc : lexLt key m' x
      · simp only [hxs, if_pos hc, Option.some.injEq] at h
        exact List.mem_cons_of_mem x (h ▸ ih m' hxs)
      · simp only [hxs, if_neg hc, Option.some.injEq] at h
        exact h ▸ List.mem_cons_self x xs

theorem argminList_isSome (key : ℕ → ℚ) (x : ℕ) (xs : List ℕ) :
    ∃ m, argminList key (x :: xs) = some m := by
  simp only [argminList]
  cases argminList key xs with
  | none => exact ⟨x, rfl⟩
  | some m' =>
    by_cases h : lexLt key m' x
    · exact ⟨m', by simp only [if_pos h]⟩
    · exact ⟨x, by simp only [if_neg h]⟩

theorem argminList_not_lt (key : ℕ → ℚ) :
    ∀ (l : List ℕ) (m : ℕ), argminList key l = some m →
      ∀ x ∈ l, ¬ lexLt key x m := by
  intro l
  induction l with
  | nil => intro m _ x hx; simp at hx
  | cons y ys ih =>
    intro m h x hx
    simp only [argminList] at h
    cases hys : argminList key ys with
    | none =>
      simp only [hys, Option.some.injEq] at h
      cases ys with
      | nil =>
        have hxy : x = y := by simpa using hx
        rw [hxy, h]
        exact lexLt_irrefl key m
      | cons z zs =>
        obtain ⟨m', hm'⟩ := argminList_isSome key z zs
        rw [hm'] at hys
        exact absurd hys (by simp)
    | some m' =>
      by_cases hc : lexLt key m' y
      · simp only [hys, if_pos hc, Option.some.injEq] at h
        rw [← h]
        rcases List.mem_cons.mp hx with rfl | hx'
        · intro hcon
          exact lexLt_irrefl key x (lexLt_trans hcon hc)
        · exact ih m' hys x hx'
      · simp only [hys, if_neg hc, Option.some.injEq] at h
        rw [← h]
        rcases List.mem_cons.mp hx with rfl | hx'
        · exact lexLt_irrefl key x
        · intro hcon
          have hxm' := ih m' hys x hx'
          by_cases hxe : x = m'
          · exact hc (hxe ▸ hcon)
          · exact hc (lexLt_trans (lexLt_of_not hxe hxm') hcon)

theorem argminList_eq_of_strict (key : ℕ → ℚ) (l : List ℕ) (i : ℕ)
    (hi : i ∈ l) (hmin : ∀ j ∈ l, j ≠ i → lexLt key i j) :
    argminList key l = some i := by
  cases l with
  | nil => simp at hi
  | cons x xs =>
    obtain ⟨m, hm⟩ := argminList_isSome key x xs
    have hmem := argminList_mem key _ m hm
    by_cases he : m = i
    · rwa [he] at hm
    · exact absurd (hmin m hmem he) (argminList_not_lt key _ m hm i hi)

theorem selectK_subset (key : ℕ → ℚ) :
    ∀ (k : ℕ) (l : List ℕ), ∀ x ∈ selectK key k l, x ∈ l := by
  intro k
  induction k with
  | zero => intro l x hx; simp [selectK] at hx
  | succ k ih =>
    intro l x hx
    simp only [selectK] at hx
    cases hm : argminList key l with
    | none => rw [hm] at hx; simp at hx
    | some m =>
      rw [hm] at hx
      rcases List.mem_cons.mp hx with rfl | hx'
      · exact argminList_mem key l x hm
      · exact List.erase_subset m l (ih (l.erase m) x hx')

theorem selectK_cons (key : ℕ → ℚ) (k : ℕ) (l : List ℕ) (m : ℕ)
    (hm : argminList key l = some m) :
    selectK key (k + 1) l = m :: selectK key k (l.erase m) := by
  simp only [selectK, hm]

/- ### Minkowski comparison keys -/

theorem zipWith_self_sum_zero (f : ℚ → ℚ → ℚ) (hf : ∀ a, f a a = 0) :
    ∀ x : List ℚ, (List.zipWith f x x).sum = 0 := by
  intro x
  induction x with
  | nil => simp
  | cons a as ih => simp [hf, ih]

theorem minkowskiKey_self (p : ℕ) (x : List ℚ) : minkowskiKey p x x = 0 := by
  unfold minkowskiKey
  split
  · exact zipWith_self_sum_zero _ (fun a => by simp) x
  · exact zipWith_self_sum_zero _ (fun a => by simp) x

theorem zipWith_nonneg_mem (f : ℚ → ℚ → ℚ) (hf : ∀ a b, 0 ≤ f a b) :
    ∀ (x y : List ℚ), ∀ z ∈ List.zipWith f x y, 0 ≤ z := by
  intro x
  induction x with
  | nil => intro y z hz; simp at hz
  | cons a as ih =>
    intro y z hz
    cases y with
    | nil => simp at hz
    | cons b bs =>
      rcases List.mem_cons.mp hz with rfl | h
      · exact hf a b
      · exact ih bs z h

theorem minkowskiKey_pos (p : ℕ) (x y : List ℚ) (m : ℕ)
    (hmx : m < x.length) (hmy : m < y.length)
    (hne : x.getD m 0 ≠ y.getD m 0) : 0 < minkowskiKey p x y := by
  unfold minkowskiKey
  split
  · have hel : (List.zipWith (fun a b => |a - b|) x y).getD m 0 =
        |x.getD m 0 - y.getD m 0| := getD_zipWith _ _ _ 0 0 0 m hmx hmy
    have hmem : (List.zipWith (fun a b => |a - b|) x y).getD m 0 ∈
        List.zipWith (fun a b => |a - b|) x y :=
      getD_mem _ _ (by rw [List.length_zipWith]; omega)
    have hle := List.single_le_sum
      (zipWith_nonneg_mem _ (fun a b => abs_nonneg _) x y) _ hmem
    rw [hel] at hle
    exact lt_of_lt_of_le (abs_pos.mpr (sub_ne_zero.mpr hne)) hle
  · have hel : (List.zipWith (fun a b => (a - b) * (a - b)) x y).getD m 0 =
        (x.getD m 0 - y.getD m 0) * (x.getD m 0 - y.getD m 0) :=
      getD_zipWith _ _ _ 0 0 0 m hmx hmy
    have hmem : (List.zipWith (fun a b => (a - b) * (a - b)) x y).getD m 0 ∈
        List.zipWith (fun a b => (a - b) * (a - b)) x y :=
      getD_mem _ _ (by rw [List.length_zipWith]; omega)
    have hle := List.single_le_sum
      (zipWith_nonneg_mem _ (fun a b => mul_self_nonneg _) x y) _ hmem
    rw [hel] at hle
    exact lt_of_lt_of_le (mul_self_pos.mpr (sub_ne_zero.mpr hne)) hle

theorem exists_ne_coord (x y : List ℚ) (hx : x.length = y.length)
    (hne : x ≠ y) : ∃ m, m < x.length ∧ x.getD m 0 ≠ y.getD m 0 := by
  by_contra h
  push_neg at h
  apply hne
  apply List.ext_getElem hx
  intro m h1 h2
  have := h m h1
  rwa [getD_eq_of_lt _ 0 h1, getD_eq_of_lt _ 0 h2] at this

/- ### kdtreeQuery rows -/

theorem kdtreeQuery_length (position : List (List ℚ)) (p k : ℕ) :
    (kdtreeQuery position p k).length = position.length := by
  simp [kdtreeQuery]

theorem kdtreeQuery_row (position : List (List ℚ)) (p k i : ℕ)
    (hi : i < position.length) :
    (kdtreeQuery position p k).getD i [] =
      selectK (fun j => minkowskiKey p (position.getD i []) (position.getD j []))
        k (List.range position.length) := by
  unfold kdtreeQuery
  have hr : (List.range position.length).getD i 0 = i := by
    rw [getD_eq_of_lt _ 0 (by simpa using hi)]
    exact List.getElem_range ..
  rw [getD_map _ 0 [] _ i (by simpa using hi), hr]

/-- With pairwise-distinct particle positions, each particle is its own
strictly nearest neighbour, so a nonempty query row starts with the particle
itself. -/
theorem self_head_of_distinct (position : List (List ℚ)) (p k : ℕ) (n d : ℕ)
    (hpos : rowsShape position n d)
    (hdist : ∀ i, i < n → ∀ j, j < n → i ≠ j →
      position.getD i [] ≠ position.getD j [])
    (i : ℕ) (hi : i < n) (hk : 1 ≤ k) :
    ∃ t, (kdtreeQuery position p k).getD i [] = i :: t := by
  obtain ⟨k', rfl⟩ : ∃ k', k = k' + 1 := ⟨k - 1, by omega⟩
  have hargmin : argminList
      (fun j => minkowskiKey p (position.getD i []) (position.getD j []))
      (List.range n) = some i := by
    apply argminList_eq_of_strict
    · exact List.mem_range.mpr hi
    · intro j hj hne
      have hjn := List.mem_range.mp hj
      left
      show minkowskiKey p (position.getD i []) (position.getD i []) <
        minkowskiKey p (position.getD i []) (position.getD j [])
      rw [minkowskiKey_self]
      have hrows : position.getD i [] ≠ position.getD j [] :=
        hdist i hi j hjn (fun he => hne (he ▸ rfl))
      obtain ⟨m, hm, hmne⟩ := exists_ne_coord (position.getD i [])
        (position.getD j []) (by rw [rowsShape_getD hpos hi, rowsShape_getD hpos hjn])
        hrows
      exact minkowskiKey_pos p _ _ m hm
        (by rw [rowsShape_getD hpos hjn]; rw [rowsShape_getD hpos hi] at hm; omega)
        hmne
  rw [kdtreeQuery_row position p (k' + 1) i (by rw [hpos.1]; omega), hpos.1,
    selectK_cons _ k' _ i hargmin]
  exact ⟨_, rfl⟩

/- ### update_gbest_neighborhood: general path (C5) -/

theorem update_gbest_neighborhood_eq (s : Swarm) (p k : ℕ) (hk : k ≠ 1) :
    update_gbest_neighborhood s p k =
      (s.pbest_pos.getD (argminIdx ((bestNeighborVec s p k).map
          (fun j => s.pbest_cost.getD j 0))) [],
       npMin ((bestNeighborVec s p k).map (fun j => s.pbest_cost.getD j 0))) := by
  unfold update_gbest_neighborhood bestNeighborVec
  simp only [if_neg hk]

theorem bestNeighborVec_length (s : Swarm) (p k : ℕ) :
    (bestNeighborVec s p k).length = s.position.length := by
  simp [bestNeighborVec, kdtreeQuery]

/-- C5: for `1 < k < n_particles`, `update_gbest_neighborhood` returns
`best_cost = min(pbest_cost[best_neighbor])` and
`best_pos = pbest_pos[argmin(pbest_cost[best_neighbor])]`, where the argmin
ranges over the particle dimension (it is a valid particle index), so the
returned position belongs to the particle whose best-neighbour cost is
lowest — not necessarily to that best neighbour itself. -/
theorem update_gbest_neighborhood_spec (s : Swarm) (p k : ℕ)
    (hk1 : 1 < k) (hkn : k < s.position.length)
    (hpp : s.pbest_pos.length = s.position.length) :
    (update_gbest_neighborhood s p k).2 =
      npMin ((bestNeighborVec s p k).map (fun j => s.pbest_cost.getD j 0)) ∧
    (update_gbest_neighborhood s p k).1 =
      s.pbest_pos.getD (argminIdx ((bestNeighborVec s p k).map
        (fun j => s.pbest_cost.getD j 0))) [] ∧
    argminIdx ((bestNeighborVec s p k).map (fun j => s.pbest_cost.getD j 0))
      < s.position.length ∧
    (∀ c ∈ (bestNeighborVec s p k).map (fun j => s.pbest_cost.getD j 0),
      (update_gbest_neighborhood s p k).2 ≤ c) ∧
    (update_gbest_neighborhood s p k).2 ∈
      (bestNeighborVec s p k).map (fun j => s.pbest_cost.getD j 0) := by
  have heq := update_gbest_neighborhood_eq s p k (by omega)
  have hlen : ((bestNeighborVec s p k).map
      (fun j => s.pbest_cost.getD j 0)).length = s.position.length := by
    rw [List.length_map, bestNeighborVec_length]
  have hne : (bestNeighborVec s p k).map (fun j => s.pbest_cost.getD j 0) ≠ [] := by
    intro h
    rw [h] at hlen
    simp at hlen
    omega
  refine ⟨by rw [heq], by rw [heq], ?_, ?_, ?_⟩
  · have := argminIdx_lt_length _ hne
    omega
  · intro c hc
    rw [heq]
    exact npMin_le_mem _ c hc
  · rw [heq]
    exact npMin_mem _ hne

/-- Witness for C5 at `swarmC5` with `p = 2`, `k = 2`. -/
theorem update_gbest_neighborhood_spec_witness :
    (update_gbest_neighborhood swarmC5 2 2).2 =
      npMin ((bestNeighborVec swarmC5 2 2).map
        (fun j => swarmC5.pbest_cost.getD j 0)) ∧
    (update_gbest_neighborhood swarmC5 2 2).1 =
      swarmC5.pbest_pos.getD (argminIdx ((bestNeighborVec swarmC5 2 2).map
        (fun j => swarmC5.pbest_cost.getD j 0))) [] ∧
    argminIdx ((bestNeighborVec swarmC5 2 2).map
      (fun j => swarmC5.pbest_cost.getD j 0)) < swarmC5.position.length ∧
    (∀ c ∈ (bestNeighborVec swarmC5 2 2).map
        (fun j => swarmC5.pbest_cost.getD j 0),
      (update_gbest_neighborhood swarmC5 2 2).2 ≤ c) ∧
    (update_gbest_neighborhood swarmC5 2 2).2 ∈
      (bestNeighborVec swarmC5 2 2).map (fun j => swarmC5.pbest_cost.getD j 0) :=
  update_gbest_neighborhood_spec swarmC5 2 2 (by decide) (by decide) (by decide)

theorem selectK_ne_nil (key : ℕ → ℚ) (k : ℕ) (hk : 1 ≤ k) (l : List ℕ)
    (hl : l ≠ []) : selectK key k l ≠ [] := by
  obtain ⟨k', rfl⟩ : ∃ k', k = k' + 1 := ⟨k - 1, by omega⟩
  cases l with
  | nil => exact absurd rfl hl
  | cons x xs =>
    obtain ⟨m, hm⟩ := argminList_isSome key x xs
    rw [selectK_cons key k' _ m hm]
    simp

/-- Every entry of the best-neighbour vector is a valid particle index. -/
theorem bestNeighborVec_mem_lt (s : Swarm) (p k : ℕ) (hk : 1 ≤ k)
    (hn : 0 < s.position.length) :
    ∀ b ∈ bestNeighborVec s p k, b < s.position.length := by
  intro b hb
  obtain ⟨row, hrowmem, hbeq⟩ := List.mem_map.mp hb
  obtain ⟨i, hi, hrow⟩ := List.mem_map.mp hrowmem
  have hrowne : row ≠ [] := by
    rw [← hrow]
    exact selectK_ne_nil _ k hk _ (by
      intro h
      rw [List.range_eq_nil] at h
      omega)
  have hargmin : argminIdx (row.map (fun j => s.pbest_cost.getD j 0)) < row.length := by
    have := argminIdx_lt_length (row.map (fun j => s.pbest_cost.getD j 0))
      (by simpa using hrowne)
    simpa using this
  have hbrow : b ∈ row := hbeq ▸ getD_mem row 0 hargmin
  have hbrange : b ∈ List.range s.position.length := by
    rw [← hrow] at hbrow
    exact selectK_subset _ k _ b hbrow
  exact List.mem_range.mp hbrange

/-- C9 (refinement): with pairwise-distinct particle positions and any
`1 < k < n_particles`, the best cost returned by `update_gbest_neighborhood`
equals the best cost returned by `update_gbest` — the particle holding the
global minimum selects itself among its neighbours (it sits at distance 0), so
the neighbourhood reduction's minimum coincides with the swarm-wide minimum
for every such `k`. -/
theorem update_gbest_neighborhood_cost_eq_gbest (s : Swarm) (p k n d : ℕ)
    (hpos : rowsShape s.position n d)
    (hpc : s.pbest_cost.length = n)
    (hdist : ∀ i, i < n → ∀ j, j < n → i ≠ j →
      s.position.getD i [] ≠ s.position.getD j [])
    (hk1 : 1 < k) (hkn : k < n) (hp : p = 1 ∨ p = 2) :
    (update_gbest_neighborhood s p k).2 = (update_gbest s).2 := by
  have hn : 0 < n := by omega
  have hplen : s.position.length = n := hpos.1
  have heq := update_gbest_neighborhood_eq s p k (by omega)
  have hpcne : s.pbest_cost ≠ [] := by
    intro h; rw [h] at hpc; simp at hpc; omega
  have hblen : (bestNeighborVec s p k).length = n := by
    rw [bestNeighborVec_length, hpos.1]
  have hbmem : ∀ b ∈ bestNeighborVec s p k, b < n := by
    intro b hb
    have := bestNeighborVec_mem_lt s p k (by omega) (by rw [hpos.1]; omega) b hb
    omega
  have hcostsne : (bestNeighborVec s p k).map (fun j => s.pbest_cost.getD j 0) ≠ [] := by
    intro h
    have : ((bestNeighborVec s p k).map (fun j => s.pbest_cost.getD j 0)).length = 0 := by
      rw [h]; rfl
    rw [List.length_map, hblen] at this
    omega
  -- the entry of the best-neighbour vector at the global argmin particle
  have hg : argminIdx s.pbest_cost < n := by
    have := argminIdx_lt_length s.pbest_cost hpcne
    omega
  have hgmin : s.pbest_cost.getD (argminIdx s.pbest_cost) 0 = npMin s.pbest_cost :=
    getD_argminIdx_eq_npMin s.pbest_cost hpcne
  obtain ⟨t, ht⟩ := self_head_of_distinct s.position p k n d hpos hdist
    (argminIdx s.pbest_cost) hg (by omega)
  have hbg : (bestNeighborVec s p k).getD (argminIdx s.pbest_cost) 0 =
      (argminIdx s.pbest_cost :: t).getD
        (argminIdx ((argminIdx s.pbest_cost :: t).map
          (fun j => s.pbest_cost.getD j 0))) 0 := by
    unfold bestNeighborVec
    rw [getD_map _ [] 0 _ (argminIdx s.pbest_cost)
      (by rw [kdtreeQuery_length, hpos.1]; omega), ht]
  -- the cost of that entry is at most the global minimum
  have hcostg : s.pbest_cost.getD
      ((bestNeighborVec s p k).getD (argminIdx s.pbest_cost) 0) 0 ≤
      npMin s.pbest_cost := by
    rw [hbg]
    have hcs : (argminIdx s.pbest_cost :: t).map (fun j => s.pbest_cost.getD j 0) ≠ [] := by
      simp
    have hidx : argminIdx ((argminIdx s.pbest_cost :: t).map
        (fun j => s.pbest_cost.getD j 0)) < (argminIdx s.pbest_cost :: t).length := by
      have := argminIdx_lt_length _ hcs
      simpa using this
    rw [← getD_map (fun j => s.pbest_cost.getD j 0) 0 0 _ _ hidx,
      getD_argminIdx_eq_npMin _ hcs]
    calc npMin ((argminIdx s.pbest_cost :: t).map (fun j => s.pbest_cost.getD j 0))
        ≤ s.pbest_cost.getD (argminIdx s.pbest_cost) 0 :=
          npMin_le_mem _ _ (by simp)
    _ = npMin s.pbest_cost := hgmin
  -- combine the two inequalities
  rw [heq]
  show npMin ((bestNeighborVec s p k).map (fun j => s.pbest_cost.getD j 0)) =
    npMin s.pbest_cost
  apply le_antisymm
  · calc npMin ((bestNeighborVec s p k).map (fun j => s.pbest_cost.getD j 0))
        ≤ ((bestNeighborVec s p k).map (fun j => s.pbest_cost.getD j 0)).getD
            (argminIdx s.pbest_cost) 0 :=
          npMin_le_mem _ _ (getD_mem _ _ (by rw [List.length_map, hblen]; omega))
    _ = s.pbest_cost.getD ((bestNeighborVec s p k).getD (argminIdx s.pbest_cost) 0) 0 :=
          getD_map _ 0 0 _ _ (by rw [hblen]; omega)
    _ ≤ npMin s.pbest_cost := hcostg
  · obtain ⟨b, hbmem', hbval⟩ := List.mem_map.mp
      (npMin_mem _ hcostsne)
    rw [← hbval]
    exact npMin_le_mem _ _ (getD_mem _ _ (by rw [hpc]; exact hbmem b hbmem'))

/-- Witness for C9 at `swarmC9` (three pairwise-distinct particles,
`p = 2`, `k = 2`). -/
theorem update_gbest_neighborhood_cost_eq_gbest_witness :
    (update_gbest_neighborhood swarmC9 2 2).2 = (update_gbest swarmC9).2 :=
  update_gbest_neighborhood_cost_eq_gbest swarmC9 2 2 3 1
    (by decide) (by decide) (by decide) (by decide) (by decide) (Or.inr rfl)

/- ### The k = 1 path (C6) and the absence of k/p validation (C10) -/

/-- C6 (evaluating the code at the failing input): at `swarmC6`, whose two
particles sit at distinct positions, the `k = 1` query does return each
particle as its own sole neighbour (`[[0], [1]]`), yet
`update_gbest_neighborhood` returns particle 0's `(pbest_pos, pbest_cost)` —
cost `5` — even though particle 1's own personal best, `1`, is strictly
better: `pbest_cost[idx][:, np.newaxis].argmin(axis=1)` is the argmin of
single-entry rows and hence the all-zeros vector, coupling every particle to
particle 0 instead of to itself. -/
theorem update_gbest_neighborhood_k1_bug :
    kdtreeQuery swarmC6.position 2 1 = [[0], [1]] ∧
    update_gbest_neighborhood swarmC6 2 1 = ([0], 5) ∧
    swarmC6.pbest_cost.getD 1 0 < swarmC6.pbest_cost.getD 0 0 ∧
    (update_gbest swarmC6).2 = 1 := by
  have hq : kdtreeQuery swarmC6.position 2 1 = [[0], [1]] := by
    norm_num [swarmC6, kdtreeQuery, List.range_succ, selectK, argminList, lexLt,
      minkowskiKey]
  refine ⟨hq, ?_, by decide, by decide⟩
  show update_gbest_neighborhood swarmC6 2 1 = ([0], 5)
  simp only [update_gbest_neighborhood, hq]
  norm_num [swarmC6, argminIdx, npMin]

/-- C10 (amended): `update_gbest_neighborhood` performs no validation of `k`
or `p` and never raises a configuration error; for every `k` in the underlying
tree query's own domain `1 ≤ k ≤ n_particles` — including `k = n_particles`,
which the spec declares invalid — the call completes and returns the ordinary
neighbourhood result. -/
theorem update_gbest_neighborhood_no_validation (s : Swarm) (p k : ℕ)
    (h1 : 1 ≤ k) (h2 : k ≤ s.position.length) :
    update_gbest_neighborhood_run s p k =
      Except.ok (update_gbest_neighborhood s p k) := by
  unfold update_gbest_neighborhood_run
  rw [if_neg (by omega)]

/-- Witness for the amended C10 at `swarmC10` with `k = n_particles = 2`. -/
theorem update_gbest_neighborhood_no_validation_witness :
    update_gbest_neighborhood_run swarmC10 2 2 =
      Except.ok (update_gbest_neighborhood swarmC10 2 2) :=
  update_gbest_neighborhood_no_validation swarmC10 2 2 (by decide) (by decide)

/-- Counterexample to C10 as stated: `k = 2` with `n_particles = 2` lies
outside the claimed valid range `[1, n_particles)`, yet the call returns an
ordinary result instead of failing with a configuration error. -/
theorem update_gbest_neighborhood_invalid_k_returns :
    ¬ ((1 : ℕ) ≤ 2 ∧ (2 : ℕ) < 2) ∧
    update_gbest_neighborhood_run swarmC10 2 2 =
      Except.ok (update_gbest_neighborhood swarmC10 2 2) :=
  ⟨by decide, rfl⟩

end PySwarms
